import Mathlib

/-!
Verification of the solm encrypted wallet key-store (`WalletService`) and
the spread distribution generator.

Shallow embedding of `src/services/WalletService.ts` and the
`generateRandomDistribution` helper of `src/index.ts`.

Modelling conventions:

* The on-disk state (the `accounts/` directory, the `wallets.json` name map
  and the in-memory password cache) is a `Store`.  The accounts directory is
  an association list in `readdir` order; each file either parses to a
  `WalletInfo` (`FileData.ok`) or fails `JSON.parse` (`FileData.corrupt`).
  All account files are `<address>.json`, so keys are the address strings.
* JavaScript truthiness of optional strings/numbers is modelled explicitly
  (`strTruthy`, `onameTruthy`, `versionTruthy`): `""`, `undefined` and `0`
  are falsy.
* Randomness (generated keypairs, salts) and the opaque cipher/bs58/ed25519
  primitives are injected as parameters (`Crypto`), as the spec treats them
  as black boxes.
* `String.prototype.localeCompare` (used by `reindexWallets`) is the
  ICU/CLDR default collation.  For the ASCII-alphanumeric (base58) address
  strings it compares case-insensitively at the primary level with digits
  before letters, breaking ties lowercase-before-uppercase; `collKey` maps a
  string to a `List ℕ` whose lexicographic order realises exactly that.
* The source's `resolveWallet` and `getWallet` call each other: on a
  name-map miss `resolveWallet` calls `getWallet`, which first calls
  `resolveWallet` again on the same input with unchanged state, so the
  recursion has no base case.  The embedding makes this explicit with a
  fuel parameter; `Res.diverge` is the out-of-fuel outcome, and exhausting
  every fuel means the source never terminates.
* Records missing the `index` field send the source's `migrateWallet` into
  `getNextIndex → listWallets → migrateWallet` with no progress (unbounded
  recursion); the model covers records that carry an index, which is every
  record the store itself ever writes.
* Effects of `Promise.all` batches (parallel reads/saves over distinct
  files) are linearised in list order.
-/

/-- JS truthiness of a string: `""` is falsy. -/
def strTruthy (s : String) : Bool := !(s == "")

/-- JS truthiness of an optional string (`undefined` and `""` are falsy). -/
def onameTruthy : Option String → Bool
  | none => false
  | some s => strTruthy s

/-- JS truthiness of the optional numeric `version` field (`undefined` and
`0` are falsy). -/
def versionTruthy : Option Nat → Bool
  | some (_ + 1) => true
  | _ => false

/-- One wallet record, as serialised to `accounts/<address>.json`
(`WalletInfo` in the source). -/
structure WalletInfo where
  publicKey : String
  name : Option String
  tags : Option (List String)
  salt : String
  index : Nat
  encryptedPrivateKey : String
  version : Option Nat
deriving Repr, DecidableEq

/-- The public projection returned by `listWallets` (`WalletListInfo`). -/
structure WalletListInfo where
  publicKey : String
  name : Option String
  tags : List String
  index : Nat
deriving Repr, DecidableEq

/-- `wallets.json`: `{ version, wallets: { name -> publicKey } }`, the
object modelled as an insertion-ordered association list with unique keys. -/
structure WalletMap where
  version : Nat
  wallets : List (String × String)
deriving Repr, DecidableEq

/-- Content of one `accounts/*.json` file: a parsed record, or a file on
which `JSON.parse`/`readFile` throws. -/
inductive FileData where
  | ok (w : WalletInfo)
  | corrupt
deriving Repr, DecidableEq

/-- The persistent state a `WalletService` instance operates on, plus the
process-lifetime password cache. -/
structure Store where
  accounts : List (String × FileData)
  walletMap : WalletMap
  cache : List (String × String)
deriving Repr, DecidableEq

/-- Typed stand-ins for the `Error`s the source throws. -/
inductive WErr where
  | nameTooShort
  | nameTooLong
  | nameBadPattern
  | duplicateName
  | invalidSeed
  | indexInUse
  | notFound
  | walletNotFound
  | parseError
deriving Repr, DecidableEq

/-- Outcome of a stateful operation: success or a thrown error (each with
the store as left behind), or divergence (the operation never returns). -/
inductive Res (α : Type) where
  | ok : α → Store → Res α
  | err : WErr → Store → Res α
  | diverge : Res α
deriving Repr, DecidableEq

/-- The error component of a `Res`, if it failed. -/
def resErr {α : Type} : Res α → Option WErr
  | .err e _ => some e
  | _ => none

/-- Whether a `Res` succeeded. -/
def resIsOk {α : Type} : Res α → Bool
  | .ok _ _ => true
  | _ => false

/-- The store a terminating `Res` leaves behind (`d` for the diverging
case, which has none). -/
def resStore {α : Type} (d : Store) : Res α → Store
  | .ok _ s => s
  | .err _ s => s
  | .diverge => d

/-- The opaque collaborators: bs58/ed25519 key derivation and the symmetric
cipher, plus the injected randomness consumers' view of them. -/
structure Crypto where
  /-- `bs58.decode` on a candidate seed phrase (`none` models a throw). -/
  decodeSeed : String → Option (List Nat)
  /-- The base58 public key of the keypair derived from a valid seed. -/
  seedToPub : String → String
  /-- `encrypt(plaintext, keyMaterial)` from `../utils/encryption`. -/
  encryptFn : String → String → String

/-- `String.prototype.toLowerCase` (the names and tags here are ASCII), as a
kernel-computable character map. -/
def jsToLower (s : String) : String := ⟨s.data.map Char.toLower⟩

/-- `String.prototype.trim`: strip leading and trailing whitespace. -/
def jsTrim (s : String) : String :=
  ⟨((s.data.dropWhile Char.isWhitespace).reverse.dropWhile Char.isWhitespace).reverse⟩

/-- Object-property lookup on an association list (`obj[key]`). -/
def mapLookup (m : List (String × String)) (k : String) : Option String :=
  (m.find? (fun p => p.1 == k)).map (fun p => p.2)

/-- Object-property assignment `obj[key] = v`: replace in place, else
append (string keys keep insertion order). -/
def mapInsert : List (String × String) → String → String → List (String × String)
  | [], k, v => [(k, v)]
  | (k', v') :: rest, k, v =>
      if k' == k then (k, v) :: rest else (k', v') :: mapInsert rest k v

/-- `delete obj[key]`. -/
def mapErase : List (String × String) → String → List (String × String)
  | [], _ => []
  | (k', v') :: rest, k =>
      if k' == k then rest else (k', v') :: mapErase rest k

/-- `normalizeName`: `name.toLowerCase().trim()`. -/
def normalizeName (name : String) : String := jsTrim (jsToLower name)

/-- A `[a-zA-Z0-9]` character. -/
def isNameEdgeChar (c : Char) : Bool := c.isAlphanum

/-- A `[a-zA-Z0-9-_]` character. -/
def isNameInnerChar (c : Char) : Bool := c.isAlphanum || c == '-' || c == '_'

/-- Interior-then-final-character check for the tail of the name pattern. -/
def namePatternTail : List Char → Bool
  | [] => false
  | [c] => isNameEdgeChar c
  | c :: cs => isNameInnerChar c && namePatternTail cs

/-- `NAME_PATTERN.test`: `^[a-zA-Z0-9][a-zA-Z0-9-_]*[a-zA-Z0-9]$` (needs at
least two characters). -/
def namePatternTest (s : String) : Bool :=
  match s.data with
  | [] => false
  | c :: cs => isNameEdgeChar c && namePatternTail cs

/-- `NAME_MIN_LENGTH`. -/
def NAME_MIN_LENGTH : Nat := 3

/-- `NAME_MAX_LENGTH`. -/
def NAME_MAX_LENGTH : Nat := 32

/-- `CURRENT_VERSION`. -/
def CURRENT_VERSION : Nat := 1

/-- `validateNameFormat` (pure: throws or returns). -/
def validateNameFormat (name : Option String) : Except WErr Unit :=
  if !onameTruthy name then .ok () else
  let n := normalizeName (name.getD "")
  if n.length < NAME_MIN_LENGTH then .error .nameTooShort
  else if n.length > NAME_MAX_LENGTH then .error .nameTooLong
  else if !namePatternTest n then .error .nameBadPattern
  else .ok ()

/-- `validateNameAvailability`: after (re)loading the map, throws
`DuplicateError` when `walletMap.wallets[normalizedName]` is truthy. -/
def validateNameAvailability (m : WalletMap) (name : Option String) : Except WErr Unit :=
  if !onameTruthy name then .ok () else
  match mapLookup m.wallets (normalizeName (name.getD "")) with
  | some existingAddress =>
      if strTruthy existingAddress then .error .duplicateName else .ok ()
  | none => .ok ()

/-- `addToMap`: no-op on a falsy name, else set the normalized name to the
public key and persist the map. -/
def addToMap (s : Store) (name : Option String) (publicKey : String) : Store :=
  if !onameTruthy name then s else
  { s with walletMap :=
      { s.walletMap with
        wallets := mapInsert s.walletMap.wallets (normalizeName (name.getD "")) publicKey } }

/-- `removeFromMap`: delete the normalized name and persist the map. -/
def removeFromMap (s : Store) (name : String) : Store :=
  { s with walletMap :=
      { s.walletMap with wallets := mapErase s.walletMap.wallets (normalizeName name) } }

/-- Replace the record stored under `pk`, else create the file
(`fs.writeFile` on `accounts/<pk>.json`). -/
def setAccount : List (String × FileData) → String → WalletInfo → List (String × FileData)
  | [], pk, w => [(pk, .ok w)]
  | (k, d) :: rest, pk, w =>
      if k == pk then (pk, .ok w) :: rest else (k, d) :: setAccount rest pk w

/-- `saveWallet` (also the write in `generateWallet`/`importWallet`). -/
def saveWallet (s : Store) (w : WalletInfo) : Store :=
  { s with accounts := setAccount s.accounts w.publicKey w }

/-- The record stored under a key, if any. -/
def findAccount (s : Store) (pk : String) : Option FileData :=
  (s.accounts.find? (fun kd => kd.1 == pk)).map (fun kd => kd.2)

/-- `passwordCache.set`. -/
def cacheSet (s : Store) (pk password : String) : Store :=
  { s with cache := mapInsert s.cache pk password }

/-- `migrateWallet`: an unversioned (or version-0) record gets
`version = 1` and is persisted before being returned.  (The source's
backfill of a missing `index` is outside the modelled state space, see the
header.) -/
def migrateWallet (s : Store) (w : WalletInfo) : WalletInfo × Store :=
  if versionTruthy w.version then (w, s)
  else
    let w' := { w with version := some CURRENT_VERSION }
    (w', saveWallet s w')

/-- The `WalletListInfo` projection used by `listWallets`
(`tags: wallet.tags || []`). -/
def toInfo (w : WalletInfo) : WalletListInfo :=
  { publicKey := w.publicKey, name := w.name, tags := w.tags.getD [], index := w.index }

/-- The sequential reading/migration pass of `listWallets` over the
directory snapshot: `none` when some file fails to read or parse (the
rejection of the `Promise.all`). -/
def readAccounts (s : Store) : List (String × FileData) → Store × Option (List WalletListInfo)
  | [] => (s, some [])
  | (_, .corrupt) :: _ => (s, none)
  | (_, .ok w) :: rest =>
      let p := migrateWallet s w
      let q := readAccounts p.2 rest
      (q.1, q.2.map (fun l => toInfo p.1 :: l))

/-- The ascending comparator `(a, b) => a.index - b.index` of the final
sort in `listWallets`. -/
def indexLe (a b : WalletListInfo) : Prop := a.index ≤ b.index

instance : DecidableRel indexLe := fun a b =>
  inferInstanceAs (Decidable (a.index ≤ b.index))

/-- The tag predicate of `listWallets`:
`filterTags.every(tag => wallet.tags?.includes(tag.toLowerCase()))`. -/
def tagFilterPred (ft : List String) (w : WalletListInfo) : Bool :=
  ft.all (fun t => w.tags.contains (jsToLower t))

/-- `listWallets`: read and migrate every record; on any read/parse error
the `catch` logs and returns `[]`.  A non-empty `filterTags` filters with
AND semantics (unsorted); otherwise the result is sorted by index. -/
def listWallets (s : Store) (filterTags : Option (List String)) :
    List WalletListInfo × Store :=
  let r := readAccounts s s.accounts
  match r.2 with
  | none => ([], r.1)
  | some infos =>
      match filterTags with
      | some ft =>
          if !ft.isEmpty then (infos.filter (tagFilterPred ft), r.1)
          else (List.insertionSort indexLe infos, r.1)
      | none =>
          (List.insertionSort indexLe infos, r.1)

/-- `getNextIndex`: `0` on an empty store, else
`Math.max(...indices) + 1`.  (Its `catch` is dead: `listWallets` never
throws.) -/
def getNextIndex (s : Store) : Nat × Store :=
  let r := listWallets s none
  if r.1.isEmpty then (0, r.2)
  else (((r.1.map (fun w => w.index)).foldl Nat.max 0) + 1, r.2)

/-- `validateIndex`: `DuplicateError` when some record already holds the
index. -/
def validateIndex (s : Store) (i : Nat) : Except WErr Unit × Store :=
  let r := listWallets s none
  (if r.1.any (fun w => w.index == i) then .error .indexInUse else .ok (), r.2)

/-- `validateSeedPhrase`: base58-decodes, requires 64 bytes, builds the
keypair; any failure is the invalid-seed error. -/
def validateSeedPhrase (c : Crypto) (seedPhrase : String) : Bool :=
  match c.decodeSeed seedPhrase with
  | some bytes => bytes.length == 64
  | none => false

/-- Tag normalization at creation and in `addTags`/`removeTags`:
`tag.trim().toLowerCase()`. -/
def normalizeTag (t : String) : String := jsToLower (jsTrim t)

/-- The record tags of a new wallet:
`tags ? tags.map(t => t.trim().toLowerCase()) : []`. -/
def creationTags : Option (List String) → List String
  | some ts => ts.map normalizeTag
  | none => []

/-- `generateWallet`.  The generated keypair (`pk`, with `secretB58` the
base58-encoded secret key) and the fresh `salt` are injected randomness. -/
def generateWallet (s : Store) (name : Option String) (password : String)
    (tags : Option (List String)) (pk secretB58 salt : String) (c : Crypto) :
    Res WalletListInfo :=
  match (if onameTruthy name then
          match validateNameFormat name with
          | .error e => .error e
          | .ok _ => validateNameAvailability s.walletMap name
         else .ok () : Except WErr Unit) with
  | .error e => .err e s
  | .ok _ =>
    let n := getNextIndex s
    match validateIndex n.2 n.1 with
    | (.error e, s₂) => .err e s₂
    | (.ok _, s₂) =>
      let w : WalletInfo :=
        { publicKey := pk, name := name, tags := some (creationTags tags),
          salt := salt, index := n.1,
          encryptedPrivateKey := c.encryptFn secretB58 (password ++ salt),
          version := some CURRENT_VERSION }
      let s₃ := saveWallet s₂ w
      let s₄ := addToMap s₃ name pk
      .ok (toInfo w) (cacheSet s₄ pk password)

/-- `importWallet`.  The keypair is derived from the seed phrase; the fresh
`salt` is injected randomness.  Note: no check that a record already exists
at the derived address — the write overwrites it. -/
def importWallet (s : Store) (name : Option String) (password : String)
    (seedPhrase : String) (tags : Option (List String)) (salt : String) (c : Crypto) :
    Res WalletListInfo :=
  match (if onameTruthy name then
          match validateNameFormat name with
          | .error e => .error e
          | .ok _ => validateNameAvailability s.walletMap name
         else .ok () : Except WErr Unit) with
  | .error e => .err e s
  | .ok _ =>
    if !validateSeedPhrase c seedPhrase then .err .invalidSeed s else
    let pk := c.seedToPub seedPhrase
    let n := getNextIndex s
    match validateIndex n.2 n.1 with
    | (.error e, s₂) => .err e s₂
    | (.ok _, s₂) =>
      let w : WalletInfo :=
        { publicKey := pk, name := name, tags := some (creationTags tags),
          salt := salt, index := n.1,
          encryptedPrivateKey := c.encryptFn seedPhrase (password ++ salt),
          version := some CURRENT_VERSION }
      let s₃ := saveWallet s₂ w
      let s₄ := addToMap s₃ name pk
      .ok (toInfo w) (cacheSet s₄ pk password)

/-- The parsed records of a directory snapshot, in order. -/
def recordsOf (files : List (String × FileData)) : List WalletInfo :=
  files.filterMap (fun kd => match kd.2 with | .ok w => some w | .corrupt => none)

/-- The parsed records of a store, in directory order. -/
def storeRecords (s : Store) : List WalletInfo := recordsOf s.accounts

/-- The version rewrite `migrateWallet` applies to a record. -/
def migRecord (w : WalletInfo) : WalletInfo :=
  if versionTruthy w.version then w else { w with version := some CURRENT_VERSION }

/-- The save `migrateWallet` performs for one record, if any. -/
def migSave? (w : WalletInfo) : Option WalletInfo :=
  if versionTruthy w.version then none else some { w with version := some CURRENT_VERSION }

/-- The records `migrateWallet` persists while a snapshot is read. -/
def migSaves (files : List (String × FileData)) : List WalletInfo :=
  (recordsOf files).filterMap migSave?

/-- The account file keys (addresses) in directory order. -/
def storeKeys (s : Store) : List String := s.accounts.map Prod.fst

/-- Every account file parses. -/
def allOk (s : Store) : Prop := ∀ kd ∈ s.accounts, kd.2 ≠ FileData.corrupt

/-- A parsed record's `publicKey` agrees with its file name. -/
def entryKeyMatches (kd : String × FileData) : Bool :=
  match kd.2 with
  | .ok w => w.publicKey == kd.1
  | .corrupt => true

/-- Store well-formedness: file names are distinct and each parsed record
is stored under its own `publicKey` (true of everything the store writes). -/
def WF (s : Store) : Prop :=
  (storeKeys s).Nodup ∧ ∀ kd ∈ s.accounts, entryKeyMatches kd = true

instance (s : Store) : Decidable (allOk s) := by
  unfold allOk
  infer_instance

instance (s : Store) : Decidable (WF s) := by
  unfold WF
  infer_instance

/-- ICU primary collation weight of an ASCII-alphanumeric character:
digits (weights 1–10) before case-folded letters (11–36).  `0` is reserved
as the end-of-primary separator in `collKey`. -/
def primaryW (c : Char) : Nat :=
  if c.isDigit then 1 + (c.toNat - 48) else 11 + ((Char.toLower c).toNat - 97)

/-- ICU tertiary (case) weight: lowercase/digit before uppercase. -/
def tertiaryW (c : Char) : Nat := if c.isUpper then 2 else 1

/-- Collation key realising `String.prototype.localeCompare` (default
locale, ICU/CLDR root collation) on ASCII-alphanumeric strings:
`a.localeCompare(b) < 0` iff `collKey a < collKey b` in the lexicographic
order on `List ℕ`. -/
def collKey (s : String) : List Nat :=
  s.data.map primaryW ++ 0 :: s.data.map tertiaryW

/-- The comparator `(a, b) => a.publicKey.localeCompare(b.publicKey)` of
`reindexWallets`, as the non-strict order the sort produces. -/
def reindexLe (a b : WalletInfo) : Prop := collKey a.publicKey ≤ collKey b.publicKey

instance : DecidableRel reindexLe := fun a b =>
  inferInstanceAs (Decidable (collKey a.publicKey ≤ collKey b.publicKey))

instance : IsTotal WalletInfo reindexLe :=
  ⟨fun a b => le_total (collKey a.publicKey) (collKey b.publicKey)⟩

instance : IsTrans WalletInfo reindexLe :=
  ⟨fun _ _ _ h₁ h₂ => le_trans h₁ h₂⟩

/-- The reassignment pass of `reindexWallets`:
`wallet.index = position; wallet.version = CURRENT_VERSION`. -/
def assignIdx : Nat → List WalletInfo → List WalletInfo
  | _, [] => []
  | i, w :: ws => { w with index := i, version := some CURRENT_VERSION } :: assignIdx (i + 1) ws

/-- `reindexWallets`: read every record (a read/parse failure is logged and
rethrown), sort by `publicKey.localeCompare`, assign indices `0..n-1` in
sorted order and persist every record. -/
def reindexWallets (s : Store) : Res Unit :=
  if s.accounts.isEmpty then .ok () s
  else if s.accounts.any (fun kd => kd.2 == FileData.corrupt) then .err .parseError s
  else
    let sorted := List.insertionSort reindexLe (storeRecords s)
    .ok () ((assignIdx 0 sorted).foldl saveWallet s)

mutual

/-- `resolveWallet`, with explicit fuel for the mutual recursion with
`getWallet`: a truthy name-map hit resolves immediately; otherwise the
source calls `getWallet` on the same input (which first calls
`resolveWallet` back, with unchanged state), converting any error into
`NotFoundError`. -/
def resolveWalletF : Nat → Store → String → Res String
  | 0, _, _ => .diverge
  | fuel + 1, s, x =>
    match mapLookup s.walletMap.wallets (normalizeName x) with
    | some addr =>
        if strTruthy addr then .ok addr s
        else
          match getWalletF fuel s x with
          | .ok _ s' => .ok x s'
          | .err _ s' => .err .notFound s'
          | .diverge => .diverge
    | none =>
        match getWalletF fuel s x with
        | .ok _ s' => .ok x s'
        | .err _ s' => .err .notFound s'
        | .diverge => .diverge

/-- `getWallet`: resolve first (uncaught if it throws), then read and parse
`accounts/<resolved>.json`, any read/parse failure becoming
`Wallet not found`. -/
def getWalletF : Nat → Store → String → Res WalletInfo
  | 0, _, _ => .diverge
  | fuel + 1, s, x =>
    match resolveWalletF fuel s x with
    | .ok pk s' =>
        match findAccount s' pk with
        | some (.ok w) => .ok w s'
        | _ => .err .walletNotFound s'
    | .err e s' => .err e s'
    | .diverge => .diverge
end

/-- First-occurrence deduplication performed by `new Set(array)`. -/
def dedupKeepFirst (l : List String) : List String :=
  l.foldl (fun acc t => if acc.contains t then acc else acc ++ [t]) []

/-- The tag union of `addTags`: `new Set(wallet.tags || [])` followed by
`tags.forEach(tag => set.add(tag.trim().toLowerCase()))`, read back in
insertion order. -/
def addTagsMerge (old ts : List String) : List String :=
  ts.foldl
    (fun acc t => if acc.contains (normalizeTag t) then acc else acc ++ [normalizeTag t])
    (dedupKeepFirst old)

/-- `addTags`. -/
def addTagsF (fuel : Nat) (s : Store) (x : String) (tags : List String) : Res WalletInfo :=
  match resolveWalletF fuel s x with
  | .ok pk s₁ =>
    match getWalletF fuel s₁ pk with
    | .ok w s₂ =>
        let w' := { w with tags := some (addTagsMerge (w.tags.getD []) tags) }
        .ok w' (saveWallet s₂ w')
    | .err e s₂ => .err e s₂
    | .diverge => .diverge
  | .err e s₁ => .err e s₁
  | .diverge => .diverge

/-- `removeTags`: an absent tag array returns the record unchanged without
saving; `"*"` among the raw arguments clears all tags; otherwise the
normalized arguments are removed. -/
def removeTagsF (fuel : Nat) (s : Store) (x : String) (tags : List String) : Res WalletInfo :=
  match resolveWalletF fuel s x with
  | .ok pk s₁ =>
    match getWalletF fuel s₁ pk with
    | .ok w s₂ =>
        match w.tags with
        | none => .ok w s₂
        | some ts =>
            let newTags :=
              if tags.contains "*" then []
              else ts.filter (fun tag => !((tags.map normalizeTag).contains tag))
            let w' := { w with tags := some newTags }
            .ok w' (saveWallet s₂ w')
    | .err e s₂ => .err e s₂
    | .diverge => .diverge
  | .err e s₁ => .err e s₁
  | .diverge => .diverge

/-- `renameWallet`: resolve and fetch the record, drop a truthy old name
from the map, then (for a truthy new name) validate format and
availability and add the map entry, and finally set the record's `name`
field and save. -/
def renameWalletF (fuel : Nat) (s : Store) (x : String) (newName : Option String) :
    Res WalletInfo :=
  match resolveWalletF fuel s x with
  | .ok pk s₁ =>
    match getWalletF fuel s₁ pk with
    | .ok w s₂ =>
        let s₃ := if onameTruthy w.name then removeFromMap s₂ (w.name.getD "") else s₂
        if onameTruthy newName then
          match validateNameFormat newName with
          | .error e => .err e s₃
          | .ok _ =>
            match validateNameAvailability s₃.walletMap newName with
            | .error e => .err e s₃
            | .ok _ =>
                let s₄ := addToMap s₃ newName pk
                let w' := { w with name := newName }
                .ok w' (saveWallet s₄ w')
        else
          let w' := { w with name := newName }
          .ok w' (saveWallet s₃ w')
    | .err e s₂ => .err e s₂
    | .diverge => .diverge
  | .err e s₁ => .err e s₁
  | .diverge => .diverge

/-- `total / count`, the per-slot base amount of the distribution. -/
def distBase (count : Nat) (total : ℚ) : ℚ := total / count

/-- The pre-rescale values of `generateRandomDistribution`: for each slot a
Box–Muller standard-normal draw `z i` (the draws are injected: the claims
hold for every draw sequence, and the irrational `sqrt`/`log`/`cos` outputs
are modelled by the arbitrary rational draw), then
`Math.max(base * (1 + z * variance), base * 0.1)`. -/
def preValues (count : Nat) (total variance : ℚ) (z : Nat → ℚ) : List ℚ :=
  (List.range count).map (fun i =>
    max (distBase count total * (1 + z i * variance)) (distBase count total * 0.1))

/-- `generateRandomDistribution(count, total, variance)`: pre-rescale
values, their sum via `reduce((a, b) => a + b, 0)`, then every value scaled
by `total / sum`. -/
def generateRandomDistribution (count : Nat) (total variance : ℚ) (z : Nat → ℚ) : List ℚ :=
  let values := preValues count total variance z
  let sum := values.foldl (· + ·) 0
  let scaleFactor := total / sum
  values.map (fun v => v * scaleFactor)

/-- The addresses of a store's records in the order `reindexWallets` sorts
them (`localeCompare` collation). -/
def sortedKeys (s : Store) : List String :=
  (List.insertionSort reindexLe (storeRecords s)).map WalletInfo.publicKey

/-- The `index` field of the record stored at an address, if it parses. -/
def recordIndex (s : Store) (k : String) : Option Nat :=
  match findAccount s k with
  | some (.ok w) => some w.index
  | _ => none

/-- Plain lexicographic (code-unit) comparison of character lists: the
comparison the spec's words "lexicographic string compare" denote, used to
compare the source's `localeCompare` order against it. -/
def lexLtB : List Char → List Char → Bool
  | [], [] => false
  | [], _ :: _ => true
  | _ :: _, [] => false
  | a :: as, b :: bs =>
      if a.toNat < b.toNat then true
      else if b.toNat < a.toNat then false
      else lexLtB as bs

/-- Lexicographic (code-unit) comparison of strings. -/
def strLexLt (a b : String) : Bool := lexLtB a.data b.data

/-- A concrete instantiation of the opaque collaborators, for the closed
scenarios below: one valid seed `"seedA"` deriving address `"A"`. -/
def cDemo : Crypto :=
  { decodeSeed := fun s => if s == "seedA" then some (List.replicate 64 0) else none,
    seedToPub := fun s => if s == "seedA" then "A" else "",
    encryptFn := fun p k => p ++ ":" ++ k }

/-- An anonymous record at address `"A"`. -/
def wRecA : WalletInfo :=
  { publicKey := "A", name := none, tags := some [], salt := "s0", index := 0,
    encryptedPrivateKey := "e0", version := some 1 }

/-- A store holding only `wRecA`, with an empty name map. -/
def sOneAnon : Store :=
  { accounts := [("A", .ok wRecA)], walletMap := { version := 1, wallets := [] }, cache := [] }

/-- The store after re-importing `"seedA"` (address `"A"`) into `sOneAnon`. -/
def sAfterReimport : Store :=
  resStore sOneAnon (importWallet sOneAnon none "pw2" "seedA" none "salt2" cDemo)

/-- The record at `"A"` named `"alice"`. -/
def wRecAlice : WalletInfo :=
  { publicKey := "A", name := some "alice", tags := some [], salt := "s0", index := 0,
    encryptedPrivateKey := "e0", version := some 1 }

/-- A store holding `wRecAlice` with its name-map entry. -/
def sNamed : Store :=
  { accounts := [("A", .ok wRecAlice)],
    walletMap := { version := 1, wallets := [("alice", "A")] }, cache := [] }

/-- A store with one healthy record and one file `JSON.parse` rejects. -/
def sCorrupt : Store :=
  { accounts := [("A", .ok wRecA), ("B", .corrupt)],
    walletMap := { version := 1, wallets := [] }, cache := [] }

/-- The empty store. -/
def sEmpty : Store :=
  { accounts := [], walletMap := { version := 1, wallets := [] }, cache := [] }

/-- The store after generating a wallet named `"Alice"` in the empty store. -/
def afterAliceGen : Store :=
  resStore sEmpty
    (generateWallet sEmpty (some "Alice") "password123" none "PK1" "sec1" "salt1" cDemo)

/-- Wallet tagged `{a}`. -/
def wTag1 : WalletInfo :=
  { publicKey := "W1", name := none, tags := some ["a"], salt := "s1", index := 0,
    encryptedPrivateKey := "e1", version := some 1 }

/-- Wallet tagged `{a, b}`. -/
def wTag2 : WalletInfo :=
  { publicKey := "W2", name := none, tags := some ["a", "b"], salt := "s2", index := 1,
    encryptedPrivateKey := "e2", version := some 1 }

/-- Wallet tagged `{b}`. -/
def wTag3 : WalletInfo :=
  { publicKey := "W3", name := none, tags := some ["b"], salt := "s3", index := 2,
    encryptedPrivateKey := "e3", version := some 1 }

/-- A store with the three tagged wallets `{a}`, `{a,b}`, `{b}`. -/
def sTagged : Store :=
  { accounts := [("W1", .ok wTag1), ("W2", .ok wTag2), ("W3", .ok wTag3)],
    walletMap := { version := 1, wallets := [] }, cache := [] }

/-- A store with one wallet tagged `{a}` alongside a file `JSON.parse`
rejects. -/
def sCorruptTagged : Store :=
  { accounts := [("W1", .ok wTag1), ("B", .corrupt)],
    walletMap := { version := 1, wallets := [] }, cache := [] }

/-- Record at the mixed-case address `"B1"`. -/
def wB1 : WalletInfo :=
  { publicKey := "B1", name := none, tags := some [], salt := "sB", index := 0,
    encryptedPrivateKey := "eB", version := some 1 }

/-- Record at the lowercase address `"a1"`. -/
def wa1 : WalletInfo :=
  { publicKey := "a1", name := none, tags := some [], salt := "sa", index := 1,
    encryptedPrivateKey := "ea", version := some 1 }

/-- A store whose two addresses order differently under `localeCompare`
collation (`"a1"` first) and code-unit lexicographic comparison
(`"B1"` first). -/
def sMixedCase : Store :=
  { accounts := [("B1", .ok wB1), ("a1", .ok wa1)],
    walletMap := { version := 1, wallets := [] }, cache := [] }

/-- The store `sMixedCase` after reindexing. -/
def sMixedCaseAfter : Store := resStore sMixedCase (reindexWallets sMixedCase)

/-- A draw sequence driving slot 0 to the 10%-of-base floor and slot 1 far
above base. -/
def zBig : Nat → ℚ := fun n => if n == 0 then -10 else 999

/-! ## Helper lemmas -/

theorem toInfo_migRecord (w : WalletInfo) : toInfo (migRecord w) = toInfo w := by
  unfold migRecord
  split <;> rfl

theorem migRecord_publicKey (w : WalletInfo) :
    (migRecord w).publicKey = w.publicKey := by
  unfold migRecord
  split <;> rfl

theorem recordsOf_map_ok (l : List (String × FileData)) (f : WalletInfo → WalletInfo) :
    recordsOf (l.map (fun kd =>
      match kd.2 with
      | .ok w => (kd.1, FileData.ok (f w))
      | .corrupt => kd)) = (recordsOf l).map f := by
  induction l with
  | nil => rfl
  | cons kd rest ih =>
      obtain ⟨k, d⟩ := kd
      cases d <;> simp [recordsOf, List.filterMap_cons] <;>
        simpa [recordsOf] using ih

theorem recordsOf_map_pk (files : List (String × FileData))
    (hok : ∀ kd ∈ files, kd.2 ≠ FileData.corrupt)
    (hmatch : ∀ kd ∈ files, entryKeyMatches kd = true) :
    (recordsOf files).map WalletInfo.publicKey = files.map Prod.fst := by
  induction files with
  | nil => rfl
  | cons kd rest ih =>
      obtain ⟨k, d⟩ := kd
      cases d with
      | ok w =>
          have hk : w.publicKey = k := by
            have := hmatch (k, .ok w) (by simp)
            simpa [entryKeyMatches] using this
          simp [recordsOf, List.filterMap_cons, hk]
          exact ih (fun kd h => hok kd (by simp [h])) (fun kd h => hmatch kd (by simp [h]))
      | corrupt =>
          exact absurd rfl (hok (k, .corrupt) (by simp))

theorem foldl_max_base (l : List Nat) (a : Nat) : a ≤ l.foldl Nat.max a := by
  induction l generalizing a with
  | nil => exact le_rfl
  | cons x t ih => exact le_trans (Nat.le_max_left a x) (ih (Nat.max a x))

theorem foldl_max_mem (l : List Nat) (a x : Nat) (hx : x ∈ l) :
    x ≤ l.foldl Nat.max a := by
  induction l generalizing a with
  | nil => cases hx
  | cons y t ih =>
      rcases List.mem_cons.1 hx with h | h
      · subst h
        exact le_trans (Nat.le_max_right a x) (foldl_max_base t (Nat.max a x))
      · exact ih (Nat.max a y) h

theorem setAccount_keys (l : List (String × FileData)) (pk : String) (w : WalletInfo)
    (h : pk ∈ l.map Prod.fst) :
    (setAccount l pk w).map Prod.fst = l.map Prod.fst := by
  induction l with
  | nil => simp at h
  | cons kd rest ih =>
      obtain ⟨k, d⟩ := kd
      by_cases hk : k = pk
      · subst hk
        simp [setAccount]
      · have hpk : pk ∈ rest.map Prod.fst := by
          rcases List.mem_cons.1 h with h' | h'
          · exact absurd h'.symm hk
          · exact h'
        simp [setAccount, hk, ih hpk]

theorem setAccount_eq_map (l : List (String × FileData)) (pk : String) (w : WalletInfo)
    (hnd : (l.map Prod.fst).Nodup) (h : pk ∈ l.map Prod.fst) :
    setAccount l pk w =
      l.map (fun kd => if kd.1 = pk then (kd.1, FileData.ok w) else kd) := by
  induction l with
  | nil => simp at h
  | cons kd rest ih =>
      obtain ⟨k, d⟩ := kd
      have hnd₁ : (k :: rest.map Prod.fst).Nodup := by simpa using hnd
      have hout : k ∉ rest.map Prod.fst := (List.nodup_cons.1 hnd₁).1
      have hnd₂ : (rest.map Prod.fst).Nodup := (List.nodup_cons.1 hnd₁).2
      by_cases hk : k = pk
      · subst hk
        have htail : rest.map (fun kd => if kd.1 = k then (kd.1, FileData.ok w) else kd)
            = rest.map id := by
          refine List.map_congr_left (fun kd hkd => ?_)
          have hne : kd.1 ≠ k := by
            intro hc
            exact hout (hc ▸ List.mem_map_of_mem Prod.fst hkd)
          simp [hne]
        simp [setAccount, htail]
      · have hpk : pk ∈ rest.map Prod.fst := by
          rcases List.mem_cons.1 h with h' | h'
          · exact absurd h'.symm hk
          · exact h'
        have hkk : (k == pk) = false := by simpa using hk
        simp [setAccount, hkk, hk, ih hnd₂ hpk]

theorem saveWallet_walletMap (s : Store) (w : WalletInfo) :
    (saveWallet s w).walletMap = s.walletMap := rfl

theorem foldl_saveWallet_walletMap (saves : List WalletInfo) (s : Store) :
    (saves.foldl saveWallet s).walletMap = s.walletMap := by
  induction saves generalizing s with
  | nil => rfl
  | cons w t ih => simpa using ih (saveWallet s w)

theorem foldl_saveWallet_cache (saves : List WalletInfo) (s : Store) :
    (saves.foldl saveWallet s).cache = s.cache := by
  induction saves generalizing s with
  | nil => rfl
  | cons w t ih => simpa using ih (saveWallet s w)

theorem foldl_saveWallet_accounts (saves : List WalletInfo) (s : Store)
    (hnd : (saves.map WalletInfo.publicKey).Nodup)
    (hsub : ∀ w ∈ saves, w.publicKey ∈ s.accounts.map Prod.fst)
    (hknd : (s.accounts.map Prod.fst).Nodup) :
    (saves.foldl saveWallet s).accounts = s.accounts.map (fun kd =>
      match saves.find? (fun w => w.publicKey == kd.1) with
      | some w => (kd.1, FileData.ok w)
      | none => kd) := by
  induction saves generalizing s with
  | nil =>
      simp only [List.foldl_nil, List.find?_nil]
      exact (List.map_id _).symm
  | cons w t ih =>
      have hw : w.publicKey ∈ s.accounts.map Prod.fst := hsub w (by simp)
      have hnd₁ : w.publicKey ∉ t.map WalletInfo.publicKey :=
        (List.nodup_cons.1 (by simpa using hnd)).1
      have hnd₂ : (t.map WalletInfo.publicKey).Nodup :=
        (List.nodup_cons.1 (by simpa using hnd)).2
      have hacc : (saveWallet s w).accounts =
          s.accounts.map (fun kd => if kd.1 = w.publicKey then (kd.1, FileData.ok w) else kd) :=
        setAccount_eq_map s.accounts w.publicKey w hknd hw
      have hkeys : (saveWallet s w).accounts.map Prod.fst = s.accounts.map Prod.fst := by
        simpa [saveWallet] using setAccount_keys s.accounts w.publicKey w hw
      have hsub' : ∀ v ∈ t, v.publicKey ∈ (saveWallet s w).accounts.map Prod.fst := by
        intro v hv
        rw [hkeys]
        exact hsub v (by simp [hv])
      have hknd' : ((saveWallet s w).accounts.map Prod.fst).Nodup := by
        rw [hkeys]
        exact hknd
      rw [List.foldl_cons, ih (saveWallet s w) hnd₂ hsub' hknd', hacc, List.map_map]
      refine List.map_congr_left (fun kd _ => ?_)
      by_cases hkd : kd.1 = w.publicKey
      · have hfind : t.find? (fun v => v.publicKey == w.publicKey) = none := by
          rw [List.find?_eq_none]
          intro v hv
          simp only [beq_iff_eq]
          intro hc
          exact hnd₁ (hc ▸ List.mem_map_of_mem _ hv)
        simp [Function.comp, hkd, hfind, List.find?_cons]
      · have hne : (w.publicKey == kd.1) = false := by
          simp only [beq_eq_false_iff_ne, ne_eq]
          exact fun hc => hkd hc.symm
        simp [Function.comp, hkd, List.find?_cons, hne]

theorem migrateWallet_fst (s : Store) (w : WalletInfo) :
    (migrateWallet s w).1 = migRecord w := by
  unfold migrateWallet migRecord
  split <;> rfl

theorem readAccounts_snd (files : List (String × FileData)) (s : Store)
    (hok : ∀ kd ∈ files, kd.2 ≠ FileData.corrupt) :
    (readAccounts s files).2 = some ((recordsOf files).map toInfo) := by
  induction files generalizing s with
  | nil => rfl
  | cons kd rest ih =>
      obtain ⟨k, d⟩ := kd
      cases d with
      | ok w =>
          have hrest := ih (migrateWallet s w).2
            (fun kd h => hok kd (by simp [h]))
          simp [readAccounts, recordsOf, List.filterMap_cons, hrest,
                migrateWallet_fst, toInfo_migRecord]
      | corrupt => exact absurd rfl (hok (k, .corrupt) (by simp))

theorem readAccounts_fst (files : List (String × FileData)) (s : Store)
    (hok : ∀ kd ∈ files, kd.2 ≠ FileData.corrupt) :
    (readAccounts s files).1 = (migSaves files).foldl saveWallet s := by
  induction files generalizing s with
  | nil => rfl
  | cons kd rest ih =>
      obtain ⟨k, d⟩ := kd
      cases d with
      | ok w =>
          have hrest := ih (migrateWallet s w).2
            (fun kd h => hok kd (by simp [h]))
          have hfst : (readAccounts s ((k, FileData.ok w) :: rest)).1 =
              (readAccounts (migrateWallet s w).2 rest).1 := rfl
          rw [hfst, hrest]
          by_cases hv : versionTruthy w.version
          · have hmw : migrateWallet s w = (w, s) := by
              unfold migrateWallet
              simp [hv]
            have hms : migSaves ((k, FileData.ok w) :: rest) = migSaves rest := by
              simp [migSaves, recordsOf, List.filterMap_cons,
                    List.filterMap_cons_none (show migSave? w = none by simp [migSave?, hv])]
            rw [hms, hmw]
          · have hmw : (migrateWallet s w).2 =
                saveWallet s { w with version := some CURRENT_VERSION } := by
              unfold migrateWallet
              simp [hv]
            have hms : migSaves ((k, FileData.ok w) :: rest) =
                { w with version := some CURRENT_VERSION } :: migSaves rest := by
              simp [migSaves, recordsOf, List.filterMap_cons,
                    List.filterMap_cons_some (show migSave? w =
                      some { w with version := some CURRENT_VERSION } by simp [migSave?, hv])]
            rw [hms, hmw, List.foldl_cons]
      | corrupt => exact absurd rfl (hok (k, .corrupt) (by simp))

theorem find?_filterMap_migSave_none (l : List WalletInfo) (k : String)
    (hk : k ∉ l.map WalletInfo.publicKey) :
    (l.filterMap migSave?).find? (fun v => v.publicKey == k) = none := by
  induction l with
  | nil => rfl
  | cons v t ih =>
      have hk₁ : v.publicKey ≠ k := by
        intro hc
        exact hk (by simp [hc])
      have hk₂ : k ∉ t.map WalletInfo.publicKey := by
        intro hc
        exact hk (by simp [hc])
      unfold migSave?
      by_cases hv : versionTruthy v.version
      · simpa [List.filterMap_cons, hv, migSave?] using ih hk₂
      · have : (({ v with version := some CURRENT_VERSION } : WalletInfo).publicKey == k) = false := by
          simpa using hk₁
        simpa [List.filterMap_cons, hv, migSave?, List.find?_cons, this] using ih hk₂

theorem find?_filterMap_migSave (l : List WalletInfo) (w : WalletInfo)
    (hnd : (l.map WalletInfo.publicKey).Nodup) (hw : w ∈ l) :
    (l.filterMap migSave?).find? (fun v => v.publicKey == w.publicKey) = migSave? w := by
  induction l with
  | nil => cases hw
  | cons v t ih =>
      have hnd₁ : v.publicKey ∉ t.map WalletInfo.publicKey :=
        (List.nodup_cons.1 (by simpa using hnd)).1
      have hnd₂ : (t.map WalletInfo.publicKey).Nodup :=
        (List.nodup_cons.1 (by simpa using hnd)).2
      rcases List.mem_cons.1 hw with hvw | hvw
      · subst hvw
        by_cases hv : versionTruthy w.version
        · rw [List.filterMap_cons_none (show migSave? w = none by simp [migSave?, hv])]
          rw [find?_filterMap_migSave_none t w.publicKey hnd₁]
          simp [migSave?, hv]
        · rw [List.filterMap_cons_some (show migSave? w =
              some { w with version := some CURRENT_VERSION } by simp [migSave?, hv])]
          simp [List.find?_cons, migSave?, hv]
      · have hne : v.publicKey ≠ w.publicKey := by
          intro hc
          exact hnd₁ (hc ▸ List.mem_map_of_mem _ hvw)
        by_cases hv : versionTruthy v.version
        · rw [List.filterMap_cons_none (show migSave? v = none by simp [migSave?, hv])]
          exact ih hnd₂ hvw
        · rw [List.filterMap_cons_some (show migSave? v =
              some { v with version := some CURRENT_VERSION } by simp [migSave?, hv])]
          have : (({ v with version := some CURRENT_VERSION } : WalletInfo).publicKey
              == w.publicKey) = false := by
            simpa using hne
          simp only [List.find?_cons, this]
          exact ih hnd₂ hvw

theorem mem_recordsOf_of_mem (files : List (String × FileData)) (k : String)
    (w : WalletInfo) (h : (k, FileData.ok w) ∈ files) : w ∈ recordsOf files := by
  unfold recordsOf
  exact List.mem_filterMap.2 ⟨(k, FileData.ok w), h, rfl⟩

theorem filterMap_migSave_pk_sublist (l : List WalletInfo) :
    ((l.filterMap migSave?).map WalletInfo.publicKey).Sublist
      (l.map WalletInfo.publicKey) := by
  induction l with
  | nil => simp
  | cons v t ih =>
      by_cases hv : versionTruthy v.version
      · rw [List.filterMap_cons_none (show migSave? v = none by simp [migSave?, hv])]
        simp only [List.map_cons]
        exact ih.trans (List.sublist_cons_self _ _)
      · rw [List.filterMap_cons_some (show migSave? v =
            some { v with version := some CURRENT_VERSION } by simp [migSave?, hv])]
        simpa using ih.cons₂ v.publicKey

theorem migSaves_pk_nodup (s : Store) (hWF : WF s) (hok : allOk s) :
    ((migSaves s.accounts).map WalletInfo.publicKey).Nodup := by
  have hrec : (recordsOf s.accounts).map WalletInfo.publicKey = s.accounts.map Prod.fst :=
    recordsOf_map_pk _ hok hWF.2
  have hnd : ((recordsOf s.accounts).map WalletInfo.publicKey).Nodup := by
    rw [hrec]
    simpa [storeKeys] using hWF.1
  exact hnd.sublist (filterMap_migSave_pk_sublist _)

theorem migSave?_publicKey (u v : WalletInfo) (h : migSave? u = some v) :
    v.publicKey = u.publicKey := by
  unfold migSave? at h
  by_cases hv : versionTruthy u.version
  · simp [hv] at h
  · simp [hv] at h
    rw [← h]

theorem migStore_accounts (s : Store) (hWF : WF s) (hok : allOk s) :
    ((migSaves s.accounts).foldl saveWallet s).accounts =
      s.accounts.map (fun kd =>
        match kd.2 with
        | .ok w => (kd.1, FileData.ok (migRecord w))
        | .corrupt => kd) := by
  have hknd : (s.accounts.map Prod.fst).Nodup := by simpa [storeKeys] using hWF.1
  have hrecpk : (recordsOf s.accounts).map WalletInfo.publicKey = s.accounts.map Prod.fst :=
    recordsOf_map_pk _ hok hWF.2
  have hrecnd : ((recordsOf s.accounts).map WalletInfo.publicKey).Nodup := by
    rw [hrecpk]
    exact hknd
  have hsub : ∀ v ∈ migSaves s.accounts, v.publicKey ∈ s.accounts.map Prod.fst := by
    intro v hv
    rcases List.mem_filterMap.1 hv with ⟨u, hu, hmu⟩
    rw [migSave?_publicKey u v hmu, ← hrecpk]
    exact List.mem_map_of_mem _ hu
  rw [foldl_saveWallet_accounts _ _ (migSaves_pk_nodup s hWF hok) hsub hknd]
  refine List.map_congr_left (fun kd hkd => ?_)
  obtain ⟨k, d⟩ := kd
  cases d with
  | corrupt => exact absurd rfl (hok (k, .corrupt) hkd)
  | ok w =>
      have hpk : w.publicKey = k := by
        simpa [entryKeyMatches] using hWF.2 (k, .ok w) hkd
      have hw : w ∈ recordsOf s.accounts := mem_recordsOf_of_mem _ k w hkd
      have hfind := find?_filterMap_migSave (recordsOf s.accounts) w hrecnd hw
      have hfun : (fun v : WalletInfo => v.publicKey == (k, FileData.ok w).1)
          = (fun v => v.publicKey == w.publicKey) := by
        simp only [hpk]
      unfold migSaves
      simp only [hfun, hfind]
      unfold migSave? migRecord
      by_cases hv : versionTruthy w.version <;> simp [hv, hpk]

theorem map_fst_mig_map (l : List (String × FileData)) :
    (l.map (fun kd =>
      match kd.2 with
      | FileData.ok w => (kd.1, FileData.ok (migRecord w))
      | FileData.corrupt => kd)).map Prod.fst = l.map Prod.fst := by
  rw [List.map_map]
  refine List.map_congr_left (fun kd _ => ?_)
  obtain ⟨k, d⟩ := kd
  cases d <;> rfl

theorem migStore_WF (s : Store) (hWF : WF s) (hok : allOk s) :
    WF ((migSaves s.accounts).foldl saveWallet s) := by
  constructor
  · show ((migSaves s.accounts).foldl saveWallet s).accounts.map Prod.fst |>.Nodup
    rw [migStore_accounts s hWF hok, map_fst_mig_map]
    simpa [storeKeys] using hWF.1
  · intro kd hkd
    rw [migStore_accounts s hWF hok] at hkd
    rcases List.mem_map.1 hkd with ⟨kd₀, hkd₀, hmap⟩
    obtain ⟨k, d⟩ := kd₀
    cases d with
    | corrupt => exact absurd rfl (hok (k, .corrupt) hkd₀)
    | ok w =>
        have hpk : w.publicKey = k := by
          simpa [entryKeyMatches] using hWF.2 (k, .ok w) hkd₀
        rw [← hmap]
        simp [entryKeyMatches, migRecord_publicKey, hpk]

theorem migStore_allOk (s : Store) (hWF : WF s) (hok : allOk s) :
    allOk ((migSaves s.accounts).foldl saveWallet s) := by
  intro kd hkd
  rw [migStore_accounts s hWF hok] at hkd
  rcases List.mem_map.1 hkd with ⟨kd₀, hkd₀, hmap⟩
  obtain ⟨k, d⟩ := kd₀
  cases d with
  | corrupt => exact absurd rfl (hok (k, .corrupt) hkd₀)
  | ok w =>
      rw [← hmap]
      simp

theorem migStore_records (s : Store) (hWF : WF s) (hok : allOk s) :
    storeRecords ((migSaves s.accounts).foldl saveWallet s) =
      (storeRecords s).map migRecord := by
  unfold storeRecords
  rw [migStore_accounts s hWF hok, recordsOf_map_ok]

theorem listWallets_none_eq (s : Store) (hok : allOk s) :
    listWallets s none =
      (List.insertionSort indexLe ((storeRecords s).map toInfo),
       (migSaves s.accounts).foldl saveWallet s) := by
  have h2 := readAccounts_snd s.accounts s hok
  have h1 := readAccounts_fst s.accounts s hok
  simp [listWallets, h2, h1, storeRecords]

theorem listWallets_filter_eq (s : Store) (ft : List String) (hft : ft ≠ [])
    (hok : allOk s) :
    (listWallets s (some ft)).1 =
      ((storeRecords s).map toInfo).filter (tagFilterPred ft) := by
  have h2 := readAccounts_snd s.accounts s hok
  have hft' : (!ft.isEmpty) = true := by
    cases ft with
    | nil => exact absurd rfl hft
    | cons a t => rfl
  simp [listWallets, h2, hft', storeRecords]

theorem migStore_infos (s : Store) (hWF : WF s) (hok : allOk s) :
    (storeRecords ((migSaves s.accounts).foldl saveWallet s)).map toInfo =
      (storeRecords s).map toInfo := by
  rw [migStore_records s hWF hok, List.map_map]
  exact List.map_congr_left (fun w _ => toInfo_migRecord w)

theorem validateIndex_next_ok (s : Store) (hWF : WF s) (hok : allOk s) :
    (validateIndex (getNextIndex s).2 (getNextIndex s).1).1 = Except.ok () := by
  have hlw := listWallets_none_eq s hok
  have hok₁ := migStore_allOk s hWF hok
  have hlw₁ := listWallets_none_eq ((migSaves s.accounts).foldl saveWallet s) hok₁
  have hinfos := migStore_infos s hWF hok
  unfold getNextIndex validateIndex
  rw [hlw]
  by_cases hemp : (List.insertionSort indexLe ((storeRecords s).map toInfo)).isEmpty
  · have hinf : (storeRecords s).map toInfo = [] := by
      have hlen := (List.perm_insertionSort indexLe ((storeRecords s).map toInfo)).length_eq
      rw [List.isEmpty_iff] at hemp
      rw [hemp] at hlen
      exact List.eq_nil_of_length_eq_zero hlen.symm
    simp only [hemp, if_true]
    simp [hlw₁, hinfos, hinf]
  · have hany : ∀ v ∈ List.insertionSort indexLe ((storeRecords s).map toInfo),
        v.index ≠ ((List.insertionSort indexLe ((storeRecords s).map toInfo)).map
              (fun w => w.index)).foldl Nat.max 0 + 1 := by
      intro v hv
      intro hc
      have hmem : v.index ∈ (List.insertionSort indexLe ((storeRecords s).map toInfo)).map
          (fun w => w.index) := List.mem_map_of_mem _ hv
      have := foldl_max_mem _ 0 _ hmem
      omega
    simp only [hemp, if_false]
    simp [hlw₁, hinfos]
    intro x hx
    exact hany (toInfo x)
      ((List.perm_insertionSort indexLe ((storeRecords s).map toInfo)).mem_iff.2
        (List.mem_map_of_mem toInfo hx))

theorem validateNameFormat_error_cases (name : Option String) (e : WErr)
    (h : validateNameFormat name = .error e) :
    e = .nameTooShort ∨ e = .nameTooLong ∨ e = .nameBadPattern := by
  unfold validateNameFormat at h
  split at h
  · cases h
  · simp only [] at h
    split at h
    · cases h
      exact Or.inl rfl
    · split at h
      · cases h
        exact Or.inr (Or.inl rfl)
      · split at h
        · cases h
          exact Or.inr (Or.inr rfl)
        · cases h

theorem validateNameAvailability_error_cases (m : WalletMap) (name : Option String) (e : WErr)
    (h : validateNameAvailability m name = .error e) : e = .duplicateName := by
  unfold validateNameAvailability at h
  split at h
  · cases h
  · split at h
    · split at h
      · cases h
        rfl
      · cases h
    · cases h

/-- C9: In `generateWallet` and `importWallet`, when every account file
reads and parses (and the store is well formed), the duplicate-index error
branch is unreachable: `validateIndex` applied to `getNextIndex`'s result
never throws, because `getNextIndex` returns one more than the maximum
existing index (or `0` on an empty store), which no existing record holds;
consequently neither creation path can fail with the index-in-use error. -/
theorem generate_import_index_validation_never_fails (s : Store)
    (hWF : WF s) (hok : allOk s) :
    (validateIndex (getNextIndex s).2 (getNextIndex s).1).1 = Except.ok () ∧
    (∀ (name : Option String) (password : String) (tags : Option (List String))
        (pk secretB58 salt : String) (c : Crypto),
        resErr (generateWallet s name password tags pk secretB58 salt c) ≠
          some WErr.indexInUse) ∧
    (∀ (name : Option String) (password seedPhrase : String)
        (tags : Option (List String)) (salt : String) (c : Crypto),
        resErr (importWallet s name password seedPhrase tags salt c) ≠
          some WErr.indexInUse) := by
  have hcore := validateIndex_next_ok s hWF hok
  refine ⟨hcore, ?_, ?_⟩
  · intro name password tags pk secretB58 salt c
    unfold generateWallet
    split
    next e heq =>
      simp only [resErr, ne_eq, Option.some.injEq]
      intro hc
      subst hc
      by_cases hn : onameTruthy name
      · rw [if_pos hn] at heq
        cases hf : validateNameFormat name with
        | error e' =>
            rw [hf] at heq
            cases heq
            rcases validateNameFormat_error_cases name _ hf with h | h | h <;> cases h
        | ok u =>
            rw [hf] at heq
            have := validateNameAvailability_error_cases s.walletMap name _ heq
            cases this
      · rw [if_neg hn] at heq
        cases heq
    next heq =>
      dsimp only
      split
      next e s₂ heq2 =>
        rw [heq2] at hcore
        cases hcore
      next heq2 =>
        simp [resErr]
  · intro name password seedPhrase tags salt c
    unfold importWallet
    split
    next e heq =>
      simp only [resErr, ne_eq, Option.some.injEq]
      intro hc
      subst hc
      by_cases hn : onameTruthy name
      · rw [if_pos hn] at heq
        cases hf : validateNameFormat name with
        | error e' =>
            rw [hf] at heq
            cases heq
            rcases validateNameFormat_error_cases name _ hf with h | h | h <;> cases h
        | ok u =>
            rw [hf] at heq
            have := validateNameAvailability_error_cases s.walletMap name _ heq
            cases this
      · rw [if_neg hn] at heq
        cases heq
    next heq =>
      by_cases hs : validateSeedPhrase c seedPhrase
      · rw [if_neg (by simp [hs])]
        dsimp only
        split
        next e s₂ heq2 =>
          rw [heq2] at hcore
          cases hcore
        next heq2 =>
          simp [resErr]
      · rw [if_pos (by simp [hs])]
        simp [resErr]

theorem generate_import_index_validation_never_fails_witness :
    WF sTagged ∧ allOk sTagged ∧
    (validateIndex (getNextIndex sTagged).2 (getNextIndex sTagged).1).1 = Except.ok () :=
  ⟨by decide, by decide,
   (generate_import_index_validation_never_fails sTagged (by decide) (by decide)).1⟩

/-- C6 (amended): on every store whose account files all read and parse,
`listWallets` with a non-empty tag filter returns exactly the wallets
whose (defaulted) tag list contains every requested tag, the requested
tags being lower-cased as in the source (AND semantics); in particular,
over wallets tagged `{a}`, `{a,b}`, `{b}`, filtering by `["a","b"]`
returns only the `{a,b}` wallet.  (On a store with an unreadable file the
filtered call instead returns `[]` — see the counterexample.) -/
theorem listWallets_filter_and_semantics :
    (∀ (s : Store) (ft : List String), allOk s → ft ≠ [] →
        (listWallets s (some ft)).1 =
          ((storeRecords s).map toInfo).filter (tagFilterPred ft)) ∧
    (listWallets sTagged (some ["a", "b"])).1 = [toInfo wTag2] := by
  refine ⟨fun s ft hok hft => listWallets_filter_eq s ft hft hok, ?_⟩
  decide

theorem listWallets_filter_and_semantics_witness :
    allOk sTagged ∧ (["a", "b"] : List String) ≠ [] ∧
    (listWallets sTagged (some ["a", "b"])).1 =
      ((storeRecords sTagged).map toInfo).filter (tagFilterPred ["a", "b"]) :=
  ⟨by decide, by decide,
   listWallets_filter_and_semantics.1 sTagged ["a", "b"] (by decide) (by decide)⟩

/-- C6 counterexample: the claim's "for every store" fails on stores with
an unreadable file.  In `sCorruptTagged` the wallet `"W1"` is tagged
`{a}` and matches the filter `["a"]`, but one neighbouring file fails to
parse, so `listWallets(["a"])` returns `[]` — not exactly the wallets
containing every requested tag. -/
theorem listWallets_filter_drops_on_corrupt :
    (listWallets sCorruptTagged (some ["a"])).1 = [] ∧
    findAccount sCorruptTagged "W1" = some (.ok wTag1) ∧
    tagFilterPred ["a"] (toInfo wTag1) = true := by
  refine ⟨?_, ?_, ?_⟩ <;> decide

theorem orderedInsert_map_pk (a₁ a₂ : WalletInfo) (l₁ l₂ : List WalletInfo)
    (ha : a₁.publicKey = a₂.publicKey)
    (hl : l₁.map WalletInfo.publicKey = l₂.map WalletInfo.publicKey) :
    (List.orderedInsert reindexLe a₁ l₁).map WalletInfo.publicKey =
      (List.orderedInsert reindexLe a₂ l₂).map WalletInfo.publicKey := by
  induction l₁ generalizing l₂ with
  | nil =>
      cases l₂ with
      | nil => simp [List.orderedInsert, ha]
      | cons b t => simp at hl
  | cons b₁ t₁ ih =>
      cases l₂ with
      | nil => simp at hl
      | cons b₂ t₂ =>
          rw [List.map_cons, List.map_cons] at hl
          injection hl with hb ht
          by_cases hr : reindexLe a₁ b₁
          · have hr₂ : reindexLe a₂ b₂ := by
              unfold reindexLe at hr ⊢
              rw [← ha, ← hb]
              exact hr
            simp [List.orderedInsert, hr, hr₂, ha, hb, ht]
          · have hr₂ : ¬reindexLe a₂ b₂ := by
              unfold reindexLe at hr ⊢
              rw [← ha, ← hb]
              exact hr
            simp [List.orderedInsert, hr, hr₂, hb, ih t₂ ht]

theorem insertionSort_map_pk (l₁ l₂ : List WalletInfo)
    (hl : l₁.map WalletInfo.publicKey = l₂.map WalletInfo.publicKey) :
    (List.insertionSort reindexLe l₁).map WalletInfo.publicKey =
      (List.insertionSort reindexLe l₂).map WalletInfo.publicKey := by
  induction l₁ generalizing l₂ with
  | nil =>
      cases l₂ with
      | nil => rfl
      | cons b t => simp at hl
  | cons b₁ t₁ ih =>
      cases l₂ with
      | nil => simp at hl
      | cons b₂ t₂ =>
          rw [List.map_cons, List.map_cons] at hl
          injection hl with hb ht
          simp only [List.insertionSort]
          exact orderedInsert_map_pk b₁ b₂ _ _ hb (ih t₂ ht)

theorem assignIdx_map_pk (l : List WalletInfo) (i : Nat) :
    (assignIdx i l).map WalletInfo.publicKey = l.map WalletInfo.publicKey := by
  induction l generalizing i with
  | nil => rfl
  | cons w t ih => simp [assignIdx, ih]

theorem assignIdx_find? (l : List WalletInfo) (i : Nat) (k : String) (w : WalletInfo)
    (hnd : (l.map WalletInfo.publicKey).Nodup) (hw : w ∈ l) (hpk : w.publicKey = k) :
    (assignIdx i l).find? (fun v => v.publicKey == k) =
      some { w with index := i + (l.map WalletInfo.publicKey).indexOf k,
                    version := some CURRENT_VERSION } := by
  induction l generalizing i with
  | nil => cases hw
  | cons v t ih =>
      have hnd₁ : v.publicKey ∉ t.map WalletInfo.publicKey :=
        (List.nodup_cons.1 (by simpa using hnd)).1
      have hnd₂ : (t.map WalletInfo.publicKey).Nodup :=
        (List.nodup_cons.1 (by simpa using hnd)).2
      rcases List.mem_cons.1 hw with hvw | hvw
      · subst hvw
        have hidx : ((w :: t).map WalletInfo.publicKey).indexOf k = 0 := by
          rw [List.map_cons, hpk]
          exact List.indexOf_cons_self k _
        simp [assignIdx, List.find?_cons, hpk, hidx]
      · have hne : v.publicKey ≠ k := by
          intro hc
          exact hnd₁ (by rw [hc, ← hpk]; exact List.mem_map_of_mem _ hvw)
        have hidx : ((v :: t).map WalletInfo.publicKey).indexOf k =
            (t.map WalletInfo.publicKey).indexOf k + 1 := by
          rw [List.map_cons]
          exact List.indexOf_cons_ne _ hne
        have hbeq : (({ v with index := i, version := some CURRENT_VERSION }
            : WalletInfo).publicKey == k) = false := by
          simpa using hne
        rw [show assignIdx i (v :: t) =
            { v with index := i, version := some CURRENT_VERSION } :: assignIdx (i + 1) t
          from rfl]
        rw [List.find?_cons_of_neg _ (by simp [hbeq]), ih (i + 1) hnd₂ hvw, hidx]
        have : i + ((t.map WalletInfo.publicKey).indexOf k + 1) =
            i + 1 + (t.map WalletInfo.publicKey).indexOf k := by omega
        rw [this]

theorem map_indexOf_self (l : List String) (hnd : l.Nodup) :
    l.map (fun k => l.indexOf k) = List.range l.length := by
  induction l with
  | nil => rfl
  | cons a t ih =>
      have hnd₁ : a ∉ t := (List.nodup_cons.1 hnd).1
      have hnd₂ : t.Nodup := (List.nodup_cons.1 hnd).2
      have htail : t.map (fun k => (a :: t).indexOf k) =
          t.map (fun k => t.indexOf k + 1) := by
        refine List.map_congr_left (fun k hk => ?_)
        have hka : a ≠ k := fun hc => hnd₁ (hc ▸ hk)
        rw [List.indexOf_cons_ne _ hka]
      have hcomp : t.map (fun k => t.indexOf k + 1) =
          (t.map (fun k => t.indexOf k)).map Nat.succ := by
        rw [List.map_map]
        rfl
      simp only [List.map_cons, List.indexOf_cons_self, htail, hcomp, ih hnd₂,
                 List.length_cons, List.range_succ_eq_map]

theorem indexOf_lt_of_collKey_lt (l : List String) (hnd : l.Nodup)
    (hs : l.Pairwise (fun a b => collKey a ≤ collKey b))
    (a b : String) (ha : a ∈ l) (hb : b ∈ l) (h : collKey a < collKey b) :
    l.indexOf a < l.indexOf b := by
  by_contra hcon
  push_neg at hcon
  have hia := List.indexOf_lt_length.2 ha
  have hib := List.indexOf_lt_length.2 hb
  rcases Nat.lt_or_ge (l.indexOf b) (l.indexOf a) with hlt | hge
  · have hpg := List.pairwise_iff_get.1 hs ⟨l.indexOf b, hib⟩ ⟨l.indexOf a, hia⟩ hlt
    rw [List.indexOf_get hib, List.indexOf_get hia] at hpg
    exact absurd hpg (not_le_of_lt h)
  · have heq : l.indexOf a = l.indexOf b := le_antisymm hge hcon
    have hab : a = b := by
      have h1 := List.indexOf_get hia
      have h2 := List.indexOf_get hib
      rw [← h1, ← h2]
      congr 1
      exact Fin.ext heq
    rw [hab] at h
    exact lt_irrefl _ h

theorem Store.ext_fields (x y : Store) (h1 : x.accounts = y.accounts)
    (h2 : x.walletMap = y.walletMap) (h3 : x.cache = y.cache) : x = y := by
  cases x
  cases y
  simp_all

theorem recordsOf_map_keyed (l : List (String × FileData)) (f : String → WalletInfo → WalletInfo)
    (hmatch : ∀ kd ∈ l, entryKeyMatches kd = true) :
    recordsOf (l.map (fun kd =>
      match kd.2 with
      | .ok w => (kd.1, FileData.ok (f kd.1 w))
      | .corrupt => kd)) = (recordsOf l).map (fun w => f w.publicKey w) := by
  induction l with
  | nil => rfl
  | cons kd rest ih =>
      obtain ⟨k, d⟩ := kd
      have hrest := ih (fun kd h => hmatch kd (by simp [h]))
      cases d with
      | ok w =>
          have hpk : w.publicKey = k := by
            simpa [entryKeyMatches] using hmatch (k, .ok w) (by simp)
          simp [recordsOf, List.filterMap_cons, hpk] at hrest ⊢
          exact hrest
      | corrupt =>
          simpa [recordsOf, List.filterMap_cons] using hrest

/-- The sorted-position transform `reindexWallets` applies to the record
stored at key `k`. -/
theorem reindex_accounts (s : Store) (hWF : WF s) (hok : allOk s) :
    reindexWallets s = .ok () { s with accounts := s.accounts.map (fun kd =>
      match kd.2 with
      | .ok w => (kd.1, FileData.ok { w with index := (sortedKeys s).indexOf kd.1,
                                             version := some CURRENT_VERSION })
      | .corrupt => kd) } := by
  have hknd : (s.accounts.map Prod.fst).Nodup := by simpa [storeKeys] using hWF.1
  by_cases hempty : s.accounts.isEmpty
  · have hnil : s.accounts = [] := List.isEmpty_iff.1 hempty
    unfold reindexWallets
    rw [if_pos hempty]
    refine congrArg (Res.ok ()) (Store.ext_fields _ _ ?_ rfl rfl)
    rw [hnil]
    rfl
  · have hcorr : (s.accounts.any fun kd => kd.2 == FileData.corrupt) = false := by
      rw [List.any_eq_false]
      intro kd hkd
      simpa using hok kd hkd
    have hrecpk : (storeRecords s).map WalletInfo.publicKey = s.accounts.map Prod.fst :=
      recordsOf_map_pk _ hok hWF.2
    have hsortperm : (List.insertionSort reindexLe (storeRecords s)).Perm (storeRecords s) :=
      List.perm_insertionSort reindexLe (storeRecords s)
    have hkeysperm : (sortedKeys s).Perm (s.accounts.map Prod.fst) := by
      rw [← hrecpk]
      exact hsortperm.map WalletInfo.publicKey
    have hsortnd : (sortedKeys s).Nodup := hkeysperm.nodup_iff.2 hknd
    have hsaves_pk : (assignIdx 0 (List.insertionSort reindexLe (storeRecords s))).map
        WalletInfo.publicKey = sortedKeys s := assignIdx_map_pk _ 0
    have hsub : ∀ v ∈ assignIdx 0 (List.insertionSort reindexLe (storeRecords s)),
        v.publicKey ∈ s.accounts.map Prod.fst := by
      intro v hv
      have : v.publicKey ∈ sortedKeys s := by
        rw [← hsaves_pk]
        exact List.mem_map_of_mem _ hv
      exact hkeysperm.subset this
    have hsaves_nd : ((assignIdx 0 (List.insertionSort reindexLe (storeRecords s))).map
        WalletInfo.publicKey).Nodup := by
      rw [hsaves_pk]
      exact hsortnd
    unfold reindexWallets
    rw [if_neg hempty]
    simp only [hcorr, Bool.false_eq_true, if_false]
    refine congrArg (Res.ok ()) (Store.ext_fields _ _ ?_ ?_ ?_)
    · rw [foldl_saveWallet_accounts _ _ hsaves_nd hsub hknd]
      refine List.map_congr_left (fun kd hkd => ?_)
      obtain ⟨k, d⟩ := kd
      cases d with
      | corrupt => exact absurd rfl (hok (k, .corrupt) hkd)
      | ok w =>
          have hpk : w.publicKey = k := by
            simpa [entryKeyMatches] using hWF.2 (k, .ok w) hkd
          have hwrec : w ∈ storeRecords s := mem_recordsOf_of_mem _ k w hkd
          have hwsort : w ∈ List.insertionSort reindexLe (storeRecords s) :=
            hsortperm.mem_iff.2 hwrec
          have hfind := assignIdx_find? (List.insertionSort reindexLe (storeRecords s)) 0 k w
            (by rw [show (List.insertionSort reindexLe (storeRecords s)).map
                  WalletInfo.publicKey = sortedKeys s from rfl]; exact hsortnd)
            hwsort hpk
          simp only [hfind]
          rw [show (List.insertionSort reindexLe (storeRecords s)).map
            WalletInfo.publicKey = sortedKeys s from rfl]
          simp [Nat.zero_add]
    · exact foldl_saveWallet_walletMap _ _
    · exact foldl_saveWallet_cache _ _

theorem map_fst_keyed_map (l : List (String × FileData))
    (f : String → WalletInfo → WalletInfo) :
    (l.map (fun kd =>
      match kd.2 with
      | FileData.ok w => (kd.1, FileData.ok (f kd.1 w))
      | FileData.corrupt => kd)).map Prod.fst = l.map Prod.fst := by
  rw [List.map_map]
  refine List.map_congr_left (fun kd _ => ?_)
  obtain ⟨k, d⟩ := kd
  cases d <;> rfl

theorem keyed_map_WF (s : Store) (hWF : WF s) (f : String → WalletInfo → WalletInfo)
    (hf : ∀ k w, (f k w).publicKey = w.publicKey) :
    WF { s with accounts := s.accounts.map (fun kd =>
      match kd.2 with
      | FileData.ok w => (kd.1, FileData.ok (f kd.1 w))
      | FileData.corrupt => kd) } := by
  constructor
  · show ((s.accounts.map _).map Prod.fst).Nodup
    rw [map_fst_keyed_map]
    simpa [storeKeys] using hWF.1
  · intro kd hkd
    rcases List.mem_map.1 hkd with ⟨kd₀, hkd₀, hmap⟩
    obtain ⟨k, d⟩ := kd₀
    cases d with
    | corrupt =>
        rw [← hmap]
        exact hWF.2 (k, .corrupt) hkd₀
    | ok w =>
        have hpk : w.publicKey = k := by
          simpa [entryKeyMatches] using hWF.2 (k, .ok w) hkd₀
        rw [← hmap]
        simp [entryKeyMatches, hf, hpk]

theorem keyed_map_allOk (s : Store) (hok : allOk s) (f : String → WalletInfo → WalletInfo) :
    allOk { s with accounts := s.accounts.map (fun kd =>
      match kd.2 with
      | FileData.ok w => (kd.1, FileData.ok (f kd.1 w))
      | FileData.corrupt => kd) } := by
  intro kd hkd
  rcases List.mem_map.1 hkd with ⟨kd₀, hkd₀, hmap⟩
  obtain ⟨k, d⟩ := kd₀
  cases d with
  | corrupt => exact absurd rfl (hok (k, .corrupt) hkd₀)
  | ok w =>
      rw [← hmap]
      simp

theorem walletInfo_update_self (w : WalletInfo) (i : Nat) (v : Option Nat)
    (hi : i = w.index) (hv : v = w.version) :
    ({ w with index := i, version := v } : WalletInfo) = w := by
  subst hi
  subst hv
  rfl

theorem map_pk_of_keyed (l : List WalletInfo) (g : WalletInfo → WalletInfo)
    (hg : ∀ w, (g w).publicKey = w.publicKey) :
    (l.map g).map WalletInfo.publicKey = l.map WalletInfo.publicKey := by
  rw [List.map_map]
  exact List.map_congr_left (fun w _ => hg w)

theorem reindex_full (s : Store) (hWF : WF s) (hok : allOk s) :
    ∃ s', reindexWallets s = .ok () s' ∧
      storeRecords s' = (storeRecords s).map
        (fun w => { w with index := (sortedKeys s).indexOf w.publicKey,
                           version := some CURRENT_VERSION }) ∧
      reindexWallets s' = .ok () s' := by
  have hrec' := recordsOf_map_keyed s.accounts
    (fun k w => { w with index := (sortedKeys s).indexOf k, version := some CURRENT_VERSION })
    hWF.2
  have hWF' := keyed_map_WF s hWF
    (fun k w => { w with index := (sortedKeys s).indexOf k, version := some CURRENT_VERSION })
    (fun k w => rfl)
  have hok' := keyed_map_allOk s hok
    (fun k w => { w with index := (sortedKeys s).indexOf k, version := some CURRENT_VERSION })
  refine ⟨_, reindex_accounts s hWF hok, hrec', ?_⟩
  have hre' := reindex_accounts _ hWF' hok'
  rw [hre']
  have hpk' := map_pk_of_keyed (recordsOf s.accounts)
    (fun w => { w with index := (sortedKeys s).indexOf w.publicKey,
                       version := some CURRENT_VERSION }) (fun w => rfl)
  have hkeys' : sortedKeys { s with accounts := s.accounts.map (fun kd =>
      match kd.2 with
      | .ok w => (kd.1, FileData.ok { w with index := (sortedKeys s).indexOf kd.1,
                                             version := some CURRENT_VERSION })
      | .corrupt => kd) } = sortedKeys s := by
    unfold sortedKeys
    apply insertionSort_map_pk
    exact (congrArg (List.map WalletInfo.publicKey) hrec').trans hpk'
  refine congrArg (Res.ok ()) (Store.ext_fields _ _ ?_ rfl rfl)
  simp only
  rw [hkeys', List.map_map]
  refine List.map_congr_left (fun kd hkd => ?_)
  obtain ⟨k, d⟩ := kd
  cases d with
  | corrupt => rfl
  | ok w => rfl

/-- C3 (amended): after `reindexWallets` on a well-formed, fully readable
store of `n` records, the resulting indices are exactly `{0,...,n-1}`,
assigned in increasing order of address under the `localeCompare`
collation realised by `collKey` — not under plain code-unit lexicographic
string comparison — and running `reindexWallets` again without intervening
creates returns the identical store (idempotence). -/
theorem reindexWallets_collation_spec (s : Store) (hWF : WF s) (hok : allOk s) :
    ∃ s', reindexWallets s = .ok () s' ∧
      ((storeRecords s').map (fun w => w.index)).Perm
        (List.range (storeRecords s).length) ∧
      (∀ w₁ ∈ storeRecords s', ∀ w₂ ∈ storeRecords s',
          collKey w₁.publicKey < collKey w₂.publicKey → w₁.index < w₂.index) ∧
      reindexWallets s' = .ok () s' := by
  obtain ⟨s', hrun, hrec, hidem⟩ := reindex_full s hWF hok
  have hknd : (s.accounts.map Prod.fst).Nodup := by simpa [storeKeys] using hWF.1
  have hrecpk : (storeRecords s).map WalletInfo.publicKey = s.accounts.map Prod.fst :=
    recordsOf_map_pk _ hok hWF.2
  have hsortperm := List.perm_insertionSort reindexLe (storeRecords s)
  have hkeysperm : (sortedKeys s).Perm ((storeRecords s).map WalletInfo.publicKey) :=
    hsortperm.map WalletInfo.publicKey
  have hsortnd : (sortedKeys s).Nodup := by
    refine hkeysperm.nodup_iff.2 ?_
    rw [hrecpk]
    exact hknd
  refine ⟨s', hrun, ?_, ?_, hidem⟩
  · rw [hrec]
    have h1 : ((storeRecords s).map
        (fun w => ({ w with index := (sortedKeys s).indexOf w.publicKey,
                            version := some CURRENT_VERSION } : WalletInfo))).map
        (fun w => w.index)
        = ((storeRecords s).map WalletInfo.publicKey).map
            (fun k => (sortedKeys s).indexOf k) := by
      rw [List.map_map, List.map_map]
      exact List.map_congr_left (fun w _ => rfl)
    rw [h1]
    have hlen : (sortedKeys s).length = (storeRecords s).length := by
      unfold sortedKeys
      rw [List.length_map]
      exact hsortperm.length_eq
    rw [← hlen]
    exact ((hkeysperm.symm).map _).trans
      (by rw [map_indexOf_self (sortedKeys s) hsortnd])
  · intro w₁ h₁ w₂ h₂ hlt
    rw [hrec] at h₁ h₂
    rcases List.mem_map.1 h₁ with ⟨u₁, hu₁, hw₁⟩
    rcases List.mem_map.1 h₂ with ⟨u₂, hu₂, hw₂⟩
    have hpw : (sortedKeys s).Pairwise (fun a b => collKey a ≤ collKey b) := by
      unfold sortedKeys
      rw [List.pairwise_map]
      exact List.sorted_insertionSort reindexLe (storeRecords s)
    have hm₁ : u₁.publicKey ∈ sortedKeys s :=
      hkeysperm.mem_iff.2 (List.mem_map_of_mem _ hu₁)
    have hm₂ : u₂.publicKey ∈ sortedKeys s :=
      hkeysperm.mem_iff.2 (List.mem_map_of_mem _ hu₂)
    rw [← hw₁, ← hw₂] at hlt ⊢
    exact indexOf_lt_of_collKey_lt (sortedKeys s) hsortnd hpw u₁.publicKey u₂.publicKey
      hm₁ hm₂ hlt

theorem reindexWallets_collation_spec_witness :
    WF sMixedCase ∧ allOk sMixedCase ∧
    (∃ s', reindexWallets sMixedCase = .ok () s' ∧
      ((storeRecords s').map (fun w => w.index)).Perm
        (List.range (storeRecords sMixedCase).length) ∧
      (∀ w₁ ∈ storeRecords s', ∀ w₂ ∈ storeRecords s',
          collKey w₁.publicKey < collKey w₂.publicKey → w₁.index < w₂.index) ∧
      reindexWallets s' = .ok () s') :=
  ⟨by decide, by decide,
   reindexWallets_collation_spec sMixedCase (by decide) (by decide)⟩

/-- C3 counterexample: the claim's "increasing order of address under
lexicographic string comparison" fails on the code.  In `sMixedCase` the
address `"B1"` precedes `"a1"` lexicographically (code-unit order), so the
claim assigns `"B1"` index `0`; `reindexWallets` (which sorts with
`localeCompare`) instead gives `"a1"` index `0` and `"B1"` index `1`. -/
theorem reindexWallets_not_lexicographic :
    resIsOk (reindexWallets sMixedCase) = true ∧
    strLexLt "B1" "a1" = true ∧
    recordIndex sMixedCaseAfter "B1" = some 1 ∧
    recordIndex sMixedCaseAfter "a1" = some 0 := by
  refine ⟨?_, by decide, ?_, ?_⟩ <;> decide

/-- When the normalized input has no truthy name-map entry, `resolveWallet`
and `getWallet` call each other forever on unchanged state: no amount of
fuel produces a result. -/
theorem resolve_get_diverge (s : Store) (x : String)
    (h : (match mapLookup s.walletMap.wallets (normalizeName x) with
          | some a => strTruthy a
          | none => false) = false) :
    ∀ fuel, resolveWalletF fuel s x = .diverge ∧ getWalletF fuel s x = .diverge := by
  intro fuel
  induction fuel with
  | zero => exact ⟨rfl, rfl⟩
  | succ n ih =>
      constructor
      · rw [show resolveWalletF (n + 1) s x =
            (match mapLookup s.walletMap.wallets (normalizeName x) with
             | some addr =>
                 if strTruthy addr then .ok addr s
                 else
                   match getWalletF n s x with
                   | .ok _ s' => .ok x s'
                   | .err _ s' => .err .notFound s'
                   | .diverge => .diverge
             | none =>
                 match getWalletF n s x with
                 | .ok _ s' => .ok x s'
                 | .err _ s' => .err .notFound s'
                 | .diverge => .diverge) from rfl]
        cases hl : mapLookup s.walletMap.wallets (normalizeName x) with
        | some a =>
            rw [hl] at h
            simp only at h
            simp only [h, Bool.false_eq_true, if_false, ih.2]
        | none =>
            simp only [ih.2]
      · rw [show getWalletF (n + 1) s x =
            (match resolveWalletF n s x with
             | .ok pk s' =>
                 match findAccount s' pk with
                 | some (.ok w) => .ok w s'
                 | _ => .err .walletNotFound s'
             | .err e s' => .err e s'
             | .diverge => .diverge) from rfl]
        simp only [ih.1]


theorem resolveName_sNamed (n : Nat) :
    resolveWalletF (n + 1) sNamed "alice" = .ok "A" sNamed := by
  rw [show resolveWalletF (n + 1) sNamed "alice" =
      (match mapLookup sNamed.walletMap.wallets (normalizeName "alice") with
       | some addr =>
           if strTruthy addr then .ok addr sNamed
           else
             match getWalletF n sNamed "alice" with
             | .ok _ s' => .ok "alice" s'
             | .err _ s' => .err .notFound s'
             | .diverge => .diverge
       | none =>
           match getWalletF n sNamed "alice" with
           | .ok _ s' => .ok "alice" s'
           | .err _ s' => .err .notFound s'
           | .diverge => .diverge) from rfl]
  have hl : mapLookup sNamed.walletMap.wallets (normalizeName "alice") = some "A" := by
    decide
  simp only [hl]
  rw [if_pos (by decide)]

/-- C2 (code bug): `renameWallet` never terminates on any real input.
After resolving the name `"alice"` to address `"A"`, the source calls
`getWallet("A")`, which calls `resolveWallet("A")` back; the lower-cased
address is not a name-map key, so the two functions call each other forever
and neither the record's `name` nor the NameMap is ever updated — the
claimed atomic name change (and with it the claimed preservation argument
for the rename path) never executes. -/
theorem renameWallet_never_terminates :
    ∀ fuel, renameWalletF fuel sNamed "alice" (some "bob") = .diverge := by
  intro fuel
  cases fuel with
  | zero => rfl
  | succ n =>
      have hdiv := (resolve_get_diverge sNamed "A" (by decide) (n + 1)).2
      simp only [renameWalletF, resolveName_sNamed n, hdiv]

/-- C10 (code bug): `addTags` and `removeTags` never terminate on any real
input, for the same `resolveWallet` / `getWallet` mutual recursion as
rename: after the name resolves to the address `"A"`, `getWallet("A")`
diverges, so no save of any field — tags included — ever happens. -/
theorem tag_operations_never_terminate :
    ∀ fuel, addTagsF fuel sNamed "alice" ["x"] = .diverge ∧
            removeTagsF fuel sNamed "alice" ["x"] = .diverge := by
  intro fuel
  cases fuel with
  | zero => exact ⟨rfl, rfl⟩
  | succ n =>
      have hdiv := (resolve_get_diverge sNamed "A" (by decide) (n + 1)).2
      constructor
      · simp only [addTagsF, resolveName_sNamed n, hdiv]
      · simp only [removeTagsF, resolveName_sNamed n, hdiv]

/-- C1 (code bug): `importWallet` does not guard against an existing record
at the derived address.  Re-importing the seed of the already-stored wallet
`"A"` succeeds (no `DuplicateError`) and silently overwrites the record —
new salt, new ciphertext, bumped index — instead of leaving it unchanged. -/
theorem importWallet_existing_address_overwrites :
    resIsOk (importWallet sOneAnon none "pw2" "seedA" none "salt2" cDemo) = true ∧
    findAccount sOneAnon "A" = some (.ok wRecA) ∧
    findAccount sAfterReimport "A" ≠ some (.ok wRecA) := by
  refine ⟨?_, ?_, ?_⟩ <;> decide

/-- C4 (code bug): `listWallets` catches every read/parse error, logs it and
returns `[]`: with one corrupt file alongside a healthy record, the caller
receives an empty list — the error is not propagated and every remaining
record is silently dropped. -/
theorem listWallets_swallows_corrupt_read :
    (listWallets sCorrupt none).1 = [] ∧
    findAccount sCorrupt "A" = some (.ok wRecA) := by
  refine ⟨?_, ?_⟩ <;> decide

/-- C5 counterexample: the "maps to a *different* address" reading fails.
In `sNamed` the name `"alice"` maps to address `"A"`, and `"seedA"` derives
that very address; importing it again under the name `"Alice"` still fails
with `DuplicateError`, although the normalized name maps to the address of
the wallet being imported, not to a different one. -/
theorem validateNameAvailability_fails_on_same_address :
    cDemo.seedToPub "seedA" = "A" ∧
    mapLookup sNamed.walletMap.wallets (normalizeName "Alice") = some "A" ∧
    resErr (importWallet sNamed (some "Alice") "pw" "seedA" none "salt9" cDemo) =
      some WErr.duplicateName := by
  refine ⟨?_, ?_, ?_⟩ <;> decide

theorem onameTruthy_iff (name : Option String) :
    onameTruthy name = true ↔ ∃ nm, name = some nm ∧ strTruthy nm = true := by
  cases name with
  | none => simp [onameTruthy]
  | some nm => simp [onameTruthy]

/-- C5 (amended): `validateNameAvailability` fails with `DuplicateError`
exactly when the normalized (lower-cased, trimmed) name is already bound in
the NameMap to a truthy (non-empty) address — whether or not that address
differs from the wallet being operated on; and creating `"Alice"` then
`"alice "` raises `DuplicateError` on the second creation. -/
theorem validateNameAvailability_iff_name_present :
    (∀ (m : WalletMap) (name : Option String) (e : WErr),
        validateNameAvailability m name = .error e ↔
          (e = .duplicateName ∧ ∃ nm a, name = some nm ∧ strTruthy nm = true ∧
            mapLookup m.wallets (normalizeName nm) = some a ∧ strTruthy a = true)) ∧
    resIsOk (generateWallet sEmpty (some "Alice") "password123" none
      "PK1" "sec1" "salt1" cDemo) = true ∧
    resErr (generateWallet afterAliceGen (some "alice ") "pw2" none
      "PK2" "sec2" "salt2" cDemo) = some WErr.duplicateName := by
  refine ⟨?_, by decide, by decide⟩
  intro m name e
  constructor
  · intro h
    unfold validateNameAvailability at h
    split at h
    · cases h
    · next hn =>
        have hname : ∃ nm, name = some nm ∧ strTruthy nm = true := by
          rw [← onameTruthy_iff]
          simpa using hn
        obtain ⟨nm, hnm, hnmt⟩ := hname
        split at h
        · next a hla =>
            split at h
            · next hat =>
                cases h
                subst hnm
                exact ⟨rfl, nm, a, rfl, hnmt, by simpa using hla, hat⟩
            · cases h
        · cases h
  · rintro ⟨he, nm, a, hn, hnm, hla, ha⟩
    subst he
    subst hn
    unfold validateNameAvailability
    rw [if_neg (by simp [onameTruthy, hnm])]
    have hla' : mapLookup m.wallets (normalizeName ((some nm).getD "")) = some a := by
      simpa using hla
    rw [hla']
    simp [ha]

theorem foldl_add_eq_sum (l : List ℚ) (a : ℚ) : l.foldl (· + ·) a = a + l.sum := by
  induction l generalizing a with
  | nil => simp
  | cons x t ih =>
      rw [List.foldl_cons, ih (a + x), List.sum_cons]
      ring

theorem sum_map_mul_right (l : List ℚ) (c : ℚ) :
    (l.map (fun v => v * c)).sum = l.sum * c := by
  induction l with
  | nil => simp
  | cons x t ih =>
      rw [List.map_cons, List.sum_cons, List.sum_cons, ih]
      ring

theorem preValues_length (count : Nat) (total variance : ℚ) (z : Nat → ℚ) :
    (preValues count total variance z).length = count := by
  unfold preValues
  rw [List.length_map, List.length_range]

theorem preValues_floor (count : Nat) (total variance : ℚ) (z : Nat → ℚ) :
    ∀ x ∈ preValues count total variance z, distBase count total * 0.1 ≤ x := by
  intro x hx
  rcases List.mem_map.1 hx with ⟨i, _, hxe⟩
  rw [← hxe]
  exact le_max_right _ _

/-- C7: for `count ≥ 1`, `total > 0`, `variance ∈ [0,1]` and every sequence
of draws, `generateRandomDistribution` returns exactly `count` values, each
strictly positive, whose sum equals `total` exactly over ℚ; and for
`variance = 0` every returned value is the equal split `total / count`. -/
theorem generateRandomDistribution_spec (count : Nat) (total variance : ℚ)
    (z : Nat → ℚ) (hc : 1 ≤ count) (ht : 0 < total)
    (hv0 : 0 ≤ variance) (hv1 : variance ≤ 1) :
    (generateRandomDistribution count total variance z).length = count ∧
    (∀ x ∈ generateRandomDistribution count total variance z, 0 < x) ∧
    (generateRandomDistribution count total variance z).sum = total ∧
    (variance = 0 →
      ∀ x ∈ generateRandomDistribution count total variance z, x = total / count) := by
  have hcq : (0 : ℚ) < count := by
    exact_mod_cast Nat.lt_of_lt_of_le Nat.zero_lt_one hc
  have hbase : 0 < distBase count total := div_pos ht hcq
  have hvpos : ∀ x ∈ preValues count total variance z, 0 < x := by
    intro x hx
    calc (0 : ℚ) < distBase count total * 0.1 := by positivity
    _ ≤ x := preValues_floor count total variance z x hx
  have hne : preValues count total variance z ≠ [] := by
    intro hnil
    have := preValues_length count total variance z
    rw [hnil] at this
    simp at this
    omega
  have hsumpos : 0 < (preValues count total variance z).sum :=
    List.sum_pos _ hvpos hne
  have hfold : (preValues count total variance z).foldl (· + ·) 0 =
      (preValues count total variance z).sum := by
    rw [foldl_add_eq_sum]
    ring
  have hgrd : generateRandomDistribution count total variance z =
      (preValues count total variance z).map
        (fun v => v * (total / (preValues count total variance z).sum)) :=
    congrArg (fun q => (preValues count total variance z).map (fun v => v * (total / q))) hfold
  refine ⟨?_, ?_, ?_, ?_⟩
  · rw [hgrd, List.length_map, preValues_length]
  · intro x hx
    rw [hgrd] at hx
    rcases List.mem_map.1 hx with ⟨v, hv, hve⟩
    rw [← hve]
    have := hvpos v hv
    have hdiv : 0 < total / (preValues count total variance z).sum :=
      div_pos ht hsumpos
    positivity
  · rw [hgrd, sum_map_mul_right]
    field_simp
  · intro hv0eq x hx
    have hval : ∀ v ∈ preValues count total variance z, v = distBase count total := by
      intro v hv
      rcases List.mem_map.1 hv with ⟨i, _, hve⟩
      rw [← hve, hv0eq, mul_zero, add_zero, mul_one]
      refine max_eq_left ?_
      calc distBase count total * 0.1 ≤ distBase count total * 1 := by
            refine mul_le_mul_of_nonneg_left (by norm_num) (le_of_lt hbase)
      _ = distBase count total := mul_one _
    have hrepl : preValues count total variance z =
        List.replicate count (distBase count total) := by
      refine List.eq_replicate_iff.2 ⟨preValues_length count total variance z, hval⟩
    have hsum_eq : (preValues count total variance z).sum = count * distBase count total := by
      rw [hrepl, List.sum_replicate, nsmul_eq_mul]
    have hcb : (count : ℚ) * distBase count total = total := by
      unfold distBase
      field_simp
    rw [hgrd] at hx
    rcases List.mem_map.1 hx with ⟨v, hv, hve⟩
    rw [← hve, hval v hv, hsum_eq, hcb, div_self (ne_of_gt ht), mul_one]
    rfl

theorem generateRandomDistribution_spec_witness :
    1 ≤ 5 ∧ (0 : ℚ) < 1000 ∧ (0 : ℚ) ≤ 0 ∧ (0 : ℚ) ≤ 1 ∧
    (generateRandomDistribution 5 1000 0 (fun i => 0)).length = 5 ∧
    (generateRandomDistribution 5 1000 0 (fun i => 0)).sum = 1000 :=
  ⟨by norm_num, by norm_num, le_rfl, by norm_num,
   (generateRandomDistribution_spec 5 1000 0 (fun i => 0)
     (by norm_num) (by norm_num) le_rfl (by norm_num)).1,
   (generateRandomDistribution_spec 5 1000 0 (fun i => 0)
     (by norm_num) (by norm_num) le_rfl (by norm_num)).2.2.1⟩

/-- C8 (amended): the 10%-of-base floor applies to the values computed
*before* the final rescale: every pre-rescale value is at least
`base * 0.1`; the returned values are exactly those values multiplied by
`total / (their sum)`, and after that uniform rescale a returned value can
drop below 10% of base. -/
theorem generateRandomDistribution_floor_prescale (count : Nat) (total variance : ℚ)
    (z : Nat → ℚ) :
    (∀ x ∈ preValues count total variance z, distBase count total * 0.1 ≤ x) ∧
    generateRandomDistribution count total variance z =
      (preValues count total variance z).map
        (fun v => v * (total / (preValues count total variance z).foldl (· + ·) 0)) :=
  ⟨preValues_floor count total variance z, rfl⟩

/-- C8 counterexample: with `count = 2`, `total = 2`, `variance = 1`
(`base = 1`) and draws sending slot 0 to the floor and slot 1 far above
base, the first *returned* value is `2/10001`, far below 10% of base
(`1/10`): the floor does not survive the rescale. -/
theorem generateRandomDistribution_floor_counterexample :
    generateRandomDistribution 2 2 1 zBig = [2/10001, 20000/10001] ∧
    ((2 : ℚ)/10001) < distBase 2 2 * 0.1 := by
  constructor
  · norm_num [generateRandomDistribution, preValues, zBig, distBase, List.range_succ]
  · norm_num [distBase]
